import Mathlib

/-!
Shallow embedding of the module synchronization engine of librarian.py
(the inclusion filter, root resolver, tree materializer, entry normalizer
and the checkout/checkin orchestrator), together with theorems settling
the specification claims about it.

Filesystem trees are modelled by the inductive type `Entry`: a file with
string content, or a directory holding a list of named entries.  Regular
expression patterns are modelled by their compiled full-match predicates
of type `String → Bool`; an absent (empty) pattern is `none`.
-/

inductive Entry where
  | file (content : String)
  | dir (entries : List (String × Entry))
deriving Repr

mutual
def decEqEntry : (a b : Entry) → Decidable (a = b)
  | .file c, .file d =>
      match decEq c d with
      | isTrue h => isTrue (by rw [h])
      | isFalse h => isFalse (by simpa using h)
  | .file _, .dir _ => isFalse (by intro h; cases h)
  | .dir _, .file _ => isFalse (by intro h; cases h)
  | .dir es, .dir fs =>
      match decEqEntryList es fs with
      | isTrue h => isTrue (by rw [h])
      | isFalse h => isFalse (by simpa using h)

def decEqEntryList : (a b : List (String × Entry)) → Decidable (a = b)
  | [], [] => isTrue rfl
  | [], _ :: _ => isFalse (by intro h; cases h)
  | _ :: _, [] => isFalse (by intro h; cases h)
  | (n, e) :: as, (m, f) :: bs =>
      match decEq n m with
      | isFalse h1 => isFalse (by simp; intro h _ _; exact h1 h)
      | isTrue h1 =>
        match decEqEntry e f with
        | isFalse h2 => isFalse (by simp; intro _ h _; exact h2 h)
        | isTrue h2 =>
          match decEqEntryList as bs with
          | isFalse h3 => isFalse (by simp; intro _ _ h; exact h3 h)
          | isTrue h3 => isTrue (by rw [h1, h2, h3])
end

instance : DecidableEq Entry := decEqEntry

def Entry.isDir : Entry → Bool
  | .file _ => false
  | .dir _ => true

/-- Names of the plain files among the entries of one directory (the
`files` component of one `os.walk` step). -/
def fileNames (es : List (String × Entry)) : List String :=
  es.filterMap (fun p => match p.2 with | .file _ => some p.1 | .dir _ => none)

/-- Names of the subdirectories (the `dirs` component of one `os.walk`
step). -/
def dirNames (es : List (String × Entry)) : List String :=
  es.filterMap (fun p => match p.2 with | .dir _ => some p.1 | .file _ => none)

/-- The include/exclude configuration of a kind.  The source stores the
patterns as strings and compiles the nonempty ones; here a compiled pattern
is abstracted to its full-match predicate, and an empty pattern is `none`. -/
structure KindCfg where
  include_pattern : Option (String → Bool)
  exclude_pattern : Option (String → Bool)

/-- Embedding of `_build_should_include`.  The returned predicate receives
the result of the `os.path.isdir` test for the inspected name together with
the name itself (in the source the directory test is performed on
`os.path.join(dir_path, f)`). -/
def _build_should_include (cfg : KindCfg) : Bool → String → Bool :=
  match cfg.include_pattern, cfg.exclude_pattern with
  | none, none => fun _ f => f != ".git"
  | include_re, exclude_re => fun isdir f =>
      f != ".git"
      && (match include_re with
          | none => true
          | some m => m f || isdir)
      && (match exclude_re with
          | none => true
          | some m => !(m f))

/-- Embedding of `_include_all`: the filter used for the checkin copy. -/
def _include_all : Bool → String → Bool := fun _ _ => true

mutual
/-- The filtered recursive copy performed by `shutil.copytree` with the
`ignore` callback built in `_copy_and_overwrite`: names rejected by the
predicate are skipped, and rejected directories are not descended into. -/
def copytree (pred : Bool → String → Bool) : Entry → Entry
  | .file c => .file c
  | .dir es => .dir (copytreeEntries pred es)

def copytreeEntries (pred : Bool → String → Bool) :
    List (String × Entry) → List (String × Entry)
  | [] => []
  | (n, e) :: rest =>
      if pred e.isDir n then (n, copytree pred e) :: copytreeEntries pred rest
      else copytreeEntries pred rest
end

mutual
/-- Embedding of `_remove_empty_directories`: the bottom-up `os.walk` pass
that removes every subdirectory that is, or becomes, empty.  The root
itself is never removed. -/
def _remove_empty_directories : Entry → Entry
  | .file c => .file c
  | .dir es => .dir (removeEmptyEntries es)

def removeEmptyEntries : List (String × Entry) → List (String × Entry)
  | [] => []
  | (n, e) :: rest =>
      if e.isDir then
        match _remove_empty_directories e with
        | .dir [] => removeEmptyEntries rest
        | e2 => (n, e2) :: removeEmptyEntries rest
      else (n, e) :: removeEmptyEntries rest
end

inductive FsError where
  | fileNotFound
deriving DecidableEq, Repr

/-- Embedding of `_copy_and_overwrite` as a transformer of the destination
state.  `none` stands for a path that does not exist on disk.  The check
for a missing source precedes the wholesale deletion of the destination,
exactly as in the source; on that error the destination is returned
untouched. -/
def _copy_and_overwrite (should_include_fn : Bool → String → Bool)
    (from_tree to_tree : Option Entry) : Option FsError × Option Entry :=
  match from_tree with
  | none => (some .fileNotFound, to_tree)
  | some src =>
      (none, some (_remove_empty_directories (copytree should_include_fn src)))

mutual
/-- One step of the pruned top-down `os.walk` of `_find_src_module_path`.
`path` is the current directory (as the list of name components below the
walk root), `acc` is the running `first_includeable` fallback.  The first
component of the result is the directory at which the early marker return
fires, if any; the second is the fallback state after the subtree. -/
def walkDir (pred : Bool → String → Bool) (marker : String)
    (path : List String) (e : Entry) (acc : Option (List String)) :
    Option (List String) × Option (List String) :=
  match e with
  | .file _ => (none, acc)
  | .dir es =>
      if (fileNames es).contains marker then (some path, acc)
      else
        let acc1 :=
          match acc with
          | some a => some a
          | none =>
              if (fileNames es).any (fun f => pred false f) then some path
              else none
        walkDirs pred marker path es acc1

/-- Iterate over the entries of one directory in order, descending only
into subdirectories accepted by the predicate (the `dirs[:] = ...`
pruning), with the early return on a found marker. -/
def walkDirs (pred : Bool → String → Bool) (marker : String)
    (path : List String) (es : List (String × Entry)) (acc : Option (List String)) :
    Option (List String) × Option (List String) :=
  match es with
  | [] => (none, acc)
  | (n, c) :: rest =>
      if c.isDir && pred true n then
        match walkDir pred marker (path ++ [n]) c acc with
        | (some p, a) => (some p, a)
        | (none, a) => walkDirs pred marker path rest a
      else walkDirs pred marker path rest acc
end

/-- Embedding of `_find_src_module_path`: the root resolver.  Returns the
relative path of the resolved module root, or `none` for the fatal
`sys.exit(-2)` when neither a marker nor an includable file was found. -/
def _find_src_module_path (should_include_fn : Bool → String → Bool)
    (root_marker : String) (e : Entry) : Option (List String) :=
  match walkDir should_include_fn root_marker [] e none with
  | (some p, _) => some p
  | (none, first_includeable) => first_includeable

/-- Substring containment on character lists: the Python `in` operator on
strings, used by the `"test" not in d` check of `_rename_if_single_file`. -/
def subList (pat : List Char) : List Char → Bool
  | [] => pat.isEmpty
  | c :: rest => pat.isPrefixOf (c :: rest) || subList pat rest

/-- `pat in s` for strings. -/
def strContains (s pat : String) : Bool := subList pat.data s.data

/-- `shutil.move` inside a directory entry list: the entry named `src` is
renamed to `dst`, overwriting any entry that already bore the name `dst`.
Moving a name onto itself leaves the directory unchanged. -/
def moveFile (src dst : String) (es : List (String × Entry)) : List (String × Entry) :=
  if src == dst then es
  else (es.filter (fun p => p.1 != dst)).map
    (fun p => if p.1 == src then (dst, p.2) else p)

/-- The `files` local of `_rename_if_single_file` after the optional
`include_re` filter. -/
def qualifyingFiles (include_re : Option (String → Bool))
    (es : List (String × Entry)) : List String :=
  match include_re with
  | some m => (fileNames es).filter m
  | none => fileNames es

/-- The `has_relevant_dirs` local of `_rename_if_single_file`: a
subdirectory counts as relevant when its name does not contain the
substring "test" and is not ".git". -/
def hasRelevantDirs (es : List (String × Entry)) : Bool :=
  (dirNames es).any (fun d => !(strContains d "test") && d != ".git")

/-- Embedding of `_rename_if_single_file`.  Only the first step of the
`os.walk` loop ever executes (the body returns unconditionally), so the
function inspects exclusively the top level of `path`.  Returns the original
name of the renamed file, when a rename happened, with the updated tree. -/
def _rename_if_single_file (path : Entry) (new_name : String)
    (include_re : Option (String → Bool)) : Option String × Entry :=
  match path with
  | .file c => (none, .file c)
  | .dir es =>
      match qualifyingFiles include_re es, hasRelevantDirs es with
      | [f], false => (some f, .dir (moveFile f new_name es))
      | _, _ => (none, .dir es)

/-- Subtree lookup along a relative path. -/
def getAt : Entry → List String → Option Entry
  | e, [] => some e
  | .file _, _ :: _ => none
  | .dir es, n :: q =>
      match es.find? (fun p => p.1 == n) with
      | some p => getAt p.2 q
      | none => none

/-- Is the entry at `p` a plain file? -/
def isFileAt (e : Entry) (p : List String) : Bool :=
  match getAt e p with
  | some (.file _) => true
  | _ => false

/-- Wholesale replacement of the subtree at a relative path, creating
intermediate directories as needed. -/
def setAt (e : Entry) (p : List String) (v : Entry) : Entry :=
  match p, e with
  | [], _ => v
  | n :: q, .dir es =>
      if es.any (fun x => x.1 == n) then
        .dir (es.map (fun x => if x.1 == n then (x.1, setAt x.2 q v) else x))
      else
        .dir (es ++ [(n, setAt (.dir []) q v)])
  | _ :: _, .file c => .file c

/-- Apply a transformation to the subtree at a relative path, when it
exists. -/
def updateAt (e : Entry) (p : List String) (f : Entry → Entry) : Entry :=
  match getAt e p with
  | some s => setAt e p (f s)
  | none => e

mutual
/-- All relative paths (as component lists) of the plain files inside an
entry. -/
def filePathsUnder : Entry → List (List String)
  | .file _ => [[]]
  | .dir es => filePathsEntries es

def filePathsEntries : List (String × Entry) → List (List String)
  | [] => []
  | (n, e) :: rest => (filePathsUnder e).map (fun q => n :: q) ++ filePathsEntries rest
end

/-- The pending deletions reported by `repo.index.diff(None)`: paths of
files present in the HEAD tree but no longer present as files in the
working tree. -/
def deletedPaths (head work : Entry) : List (List String) :=
  (filePathsUnder head).filter (fun p => !(isFileAt work p))

/-- `repo.git.checkout("--", a_path)`: restore one deleted file from
HEAD. -/
def restoreFileFromHead (head work : Entry) (p : List String) : Entry :=
  match getAt head p with
  | some (.file c) => setAt work p (.file c)
  | _ => work

/-- The selective deletion-restoration loop of `_checkin_module`: every
pending deletion whose path fails the inclusion predicate is checked out
again from HEAD.  `isdir_cwd` is the ambient `os.path.isdir` test, which the
source performs relative to the current working directory (the project
root), and the predicate receives the full slash-joined relative path of
the deleted file, exactly as `should_include("", i.a_path)` does. -/
def restoreDeletions (should_include_fn : Bool → String → Bool)
    (isdir_cwd : List String → Bool) (head work : Entry) : Entry :=
  (deletedPaths head work).foldl
    (fun w p =>
      if !(should_include_fn (isdir_cwd p) (String.intercalate "/" p)) then
        restoreFileFromHead head w p
      else w)
    work

/-- A directory reachable from `e` through predicate-accepted subdirectories
— the part of the tree the pruned walk visits — whose immediate files
contain the marker. -/
inductive MarkerAt (pred : Bool → String → Bool) (marker : String) : Entry → List String → Prop
  | here {es : List (String × Entry)} (h : marker ∈ fileNames es) :
      MarkerAt pred marker (.dir es) []
  | there {es : List (String × Entry)} {n : String} {c : Entry} {q : List String}
      (hmem : (n, c) ∈ es) (hdir : c.isDir = true) (hacc : pred true n = true)
      (htail : MarkerAt pred marker c q) : MarkerAt pred marker (.dir es) (n :: q)

/-- The directory at relative path `q` inside `e` exists and its immediate
files contain the marker (no acceptance condition along the path). -/
inductive HasMarkerAt (marker : String) : Entry → List String → Prop
  | here {es : List (String × Entry)} (h : marker ∈ fileNames es) :
      HasMarkerAt marker (.dir es) []
  | there {es : List (String × Entry)} {n : String} {c : Entry} {q : List String}
      (hmem : (n, c) ∈ es) (htail : HasMarkerAt marker c q) :
      HasMarkerAt marker (.dir es) (n :: q)

/-- A reachable directory with at least one predicate-accepted immediate
file. -/
inductive IncFileAt (pred : Bool → String → Bool) : Entry → List String → Prop
  | here {es : List (String × Entry)} (h : ∃ f ∈ fileNames es, pred false f = true) :
      IncFileAt pred (.dir es) []
  | there {es : List (String × Entry)} {n : String} {c : Entry} {q : List String}
      (hmem : (n, c) ∈ es) (hdir : c.isDir = true) (hacc : pred true n = true)
      (htail : IncFileAt pred c q) : IncFileAt pred (.dir es) (n :: q)

/-- A git repository, reduced to what the orchestrator observes: the tree
of the HEAD commit of the checked-out branch, the working tree (the
version-control metadata directory is modelled separately), and the number
of commits created by the orchestrator.  `is_dirty` is the combined
index/working-tree/untracked/submodule dirty query of the contract. -/
structure GitRepo where
  head : Entry
  work : Entry
  commits : Nat
deriving Repr, DecidableEq

def GitRepo.is_dirty (r : GitRepo) : Bool := decide (r.work ≠ r.head)

inductive CheckoutOutcome where
  | abortedDirty | fatalNoIncludable | committed | noop
deriving DecidableEq, Repr

/-- The observable result of `_checkout_module`: the project repository,
the set of per-project branches of the module's library clone, and the
`renamed_root_marker` value persisted in the module's configuration
record. -/
structure CheckoutState where
  target_repo : GitRepo
  branches : List String
  renamed_root_marker : Option String
  outcome : CheckoutOutcome
deriving Repr, DecidableEq

/-- Embedding of `_checkout_module`.  `module_tree` is the working tree of
the module's library clone (its master line; checkout only reads it),
`target_rel` is `lib_path / module` relative to the project root,
`branches` the per-project branches existing in the clone and
`renamed_root_marker` the currently persisted original-name record.
The branch bookkeeping retargets or creates the project branch at the
master commit; in this single-commit view of the clone only the branch
name set is observable.  Whether the destination existed beforehand
(`is_update`) only influences the commit message and is not modelled. -/
def _checkout_module (cfg : KindCfg) (root_marker : String)
    (rename_pattern : Option (String → Bool))
    (project : String) (target_repo : GitRepo) (target_rel : List String)
    (module_tree : Entry) (branches : List String)
    (renamed_root_marker : Option String) : CheckoutState :=
  if target_repo.is_dirty then
    ⟨target_repo, branches, renamed_root_marker, .abortedDirty⟩
  else
    let branches1 := if branches.contains project then branches else branches ++ [project]
    let should_include := _build_should_include cfg
    match _find_src_module_path should_include root_marker module_tree with
    | none => ⟨target_repo, branches1, renamed_root_marker, .fatalNoIncludable⟩
    | some module_path =>
        let src := getAt module_tree module_path
        let work1 :=
          match _copy_and_overwrite should_include src (getAt target_repo.work target_rel) with
          | (_, some copied) => setAt target_repo.work target_rel copied
          | (_, none) => target_repo.work
        let step :=
          match rename_pattern with
          | some single =>
              match getAt work1 target_rel with
              | some sub =>
                  let r := _rename_if_single_file sub root_marker (some single)
                  (r.1, setAt work1 target_rel r.2)
              | none => (none, work1)
          | none => (none, work1)
        let renamed1 :=
          match step.1 with
          | some r => some r
          | none => renamed_root_marker
        let repo1 : GitRepo := { target_repo with work := step.2 }
        if repo1.is_dirty then
          ⟨{ head := step.2, work := step.2, commits := target_repo.commits + 1 },
            branches1, renamed1, .committed⟩
        else
          ⟨repo1, branches1, renamed1, .noop⟩

/-- Where the library clone's version-control metadata directory currently
sits: at its normal place, relocated to the parent directory by the
checkin guard, or destroyed by a wholesale copy that ran over it. -/
inductive DotGitStatus where
  | home | relocated | destroyed
deriving DecidableEq, Repr

inductive CheckinOutcome where
  | abortedDirty | fatalNoBranch | fatalNoIncludable | fatalModuleMissing
  | committed | noop
deriving DecidableEq, Repr

structure CheckinState where
  module_repo : GitRepo
  dot_git : DotGitStatus
  outcome : CheckinOutcome
deriving Repr, DecidableEq

/-- Embedding of `_checkin_module`.  `root_marker_re` is the full-match
predicate of `re.compile(cfg["root_marker"])` used by the reverse
normalization, `has_rename_pattern` the truthiness of the kind's
`rename_root_marker_pattern`, `renamed_root_marker` the recorded original
file name (absent or empty reads as `none`), `project_work` the project's
working tree (also the ambient current working directory for the
`os.path.isdir` test, exposed as `isdir_cwd`), and `module_repo` the
module's library clone positioned on the per-project branch line.  The
branch checkout of a clean clone does not change its tree in this
single-branch view.  The resolver runs on the on-disk clone, whose
metadata directory it never enters (the predicate always rejects ".git"),
so running it on the metadata-free `work` tree is equivalent. -/
def _checkin_module (cfg : KindCfg) (root_marker : String)
    (root_marker_re : String → Bool) (has_rename_pattern : Bool)
    (renamed_root_marker : Option String)
    (project : String) (project_work : Entry)
    (target_rel : List String)
    (module_repo : GitRepo) (branches : List String)
    (isdir_cwd : List String → Bool) : CheckinState :=
  if module_repo.is_dirty then
    ⟨module_repo, .home, .abortedDirty⟩
  else if !(branches.contains project) then
    ⟨module_repo, .home, .fatalNoBranch⟩
  else
    let should_include := _build_should_include cfg
    match _find_src_module_path should_include root_marker module_repo.work with
    | none => ⟨module_repo, .home, .fatalNoIncludable⟩
    | some dst_path =>
      -- metadata relocation guard: scoped move of the metadata directory
      -- when the resolved root is the top level of the clone
      let relocated := dst_path.isEmpty
      let dot_git1 : DotGitStatus := if relocated then .relocated else .home
      match _copy_and_overwrite _include_all
          (getAt project_work target_rel)
          (getAt module_repo.work dst_path) with
      | (some _, _) =>
          -- FileNotFoundError: the finally clause still restores the
          -- relocated metadata directory before sys.exit
          ⟨module_repo, if relocated then .home else dot_git1, .fatalModuleMissing⟩
      | (none, copied) =>
          -- the wholesale delete inside the copy would destroy the
          -- metadata directory were it still in place at the top level
          let dot_git2 :=
            if dst_path.isEmpty && dot_git1 == DotGitStatus.home then .destroyed
            else dot_git1
          let work1 :=
            match copied with
            | some c => setAt module_repo.work dst_path c
            | none => module_repo.work
          -- the finally clause: move the metadata directory back
          let dot_git3 :=
            if relocated && dot_git2 == DotGitStatus.relocated then DotGitStatus.home
            else dot_git2
          let work2 :=
            if has_rename_pattern then
              match renamed_root_marker with
              | some file =>
                  updateAt work1 dst_path
                    (fun e => (_rename_if_single_file e file (some root_marker_re)).2)
              | none => work1
            else work1
          let repo1 : GitRepo := { module_repo with work := work2 }
          if repo1.is_dirty then
            let work3 := restoreDeletions should_include isdir_cwd module_repo.head work2
            ⟨{ head := work3, work := work3, commits := module_repo.commits + 1 },
              dot_git3, .committed⟩
          else
            ⟨repo1, dot_git3, .noop⟩

/-- Full-match predicate of the include pattern of the canonical Lua kind,
".*\.lua|LICENSE.*"; it agrees with the compiled regular expression on
every newline-free name. -/
def loveInclude : String → Bool :=
  fun s => ".lua".data.isSuffixOf s.data || "LICENSE".data.isPrefixOf s.data

/-- Full-match predicate of the exclude pattern "tests?|demos?", which
matches exactly these four names. -/
def loveExclude : String → Bool :=
  fun s => s == "tests" || s == "test" || s == "demos" || s == "demo"

def loveCfg : KindCfg := ⟨some loveInclude, some loveExclude⟩

/-- Full-match predicate of the reverse-normalization pattern
`re.compile("init.lua")`; it agrees with the compiled pattern on every
name arising in the scenario below. -/
def initLuaRe : String → Bool := fun s => s == "init.lua"

/-- Full-match predicate of the single-file rename pattern ".*\.lua". -/
def dotLuaRe : String → Bool := fun s => ".lua".data.isSuffixOf s.data

/-- Library clone tree of a module consisting of one Lua file plus a test
directory that the kind's filter excludes from checkout. -/
def windfieldTree : Entry :=
  .dir [("windfield.lua", .file "w"), ("tests", .dir [("a.lua", .file "a")])]

/-- Checkout of that module into an empty, clean project. -/
def demoCheckout : CheckoutState :=
  _checkout_module loveCfg "init.lua" (some dotLuaRe) "puppypark"
    ⟨.dir [], .dir [], 0⟩ ["src", "lib", "windfield"] windfieldTree [] none

/-- Checkin run immediately afterwards with no intervening edits: every
input is taken unchanged from the checkout's outputs. -/
def demoCheckin : CheckinState :=
  _checkin_module loveCfg "init.lua" initLuaRe true
    demoCheckout.renamed_root_marker "puppypark" demoCheckout.target_repo.work
    ["src", "lib", "windfield"]
    ⟨windfieldTree, windfieldTree, 0⟩ demoCheckout.branches
    (fun p => (getAt demoCheckout.target_repo.work p).elim false Entry.isDir)

def pruneCexPred : Bool → String → Bool :=
  _build_should_include ⟨none, some (fun s => s == "tests")⟩

def pruneCexTree : Entry :=
  .dir [("foo.lua", .file ""), ("tests", .dir [("init.lua", .file "")])]

theorem Entry.induct (motive : Entry → Prop)
    (hfile : ∀ c, motive (.file c))
    (hdir : ∀ es, (∀ p ∈ es, motive p.2) → motive (.dir es)) :
    ∀ e, motive e := by
  have key : ∀ (k : Nat) (e : Entry), sizeOf e ≤ k → motive e := by
    intro k
    induction k with
    | zero =>
        intro e h
        cases e <;> simp at h
    | succ k ih =>
        intro e h
        cases e with
        | file c => exact hfile c
        | dir es =>
            refine hdir es (fun p hp => ih p.2 ?_)
            have h1 : sizeOf p < sizeOf es := List.sizeOf_lt_of_mem hp
            have h2 : sizeOf p.2 < sizeOf p := by
              obtain ⟨a, b⟩ := p
              simp
            simp at h
            omega
  exact fun e => key (sizeOf e) e le_rfl

theorem rename_fires {es : List (String × Entry)} {include_re : Option (String → Bool)}
    {f : String} (new_name : String)
    (h1 : qualifyingFiles include_re es = [f]) (h2 : hasRelevantDirs es = false) :
    _rename_if_single_file (.dir es) new_name include_re =
      (some f, .dir (moveFile f new_name es)) := by
  unfold _rename_if_single_file
  dsimp only
  rw [h1, h2]

theorem rename_fires_inv {es : List (String × Entry)} {include_re : Option (String → Bool)}
    {new_name f : String} {e2 : Entry}
    (h : _rename_if_single_file (.dir es) new_name include_re = (some f, e2)) :
    qualifyingFiles include_re es = [f] ∧ hasRelevantDirs es = false ∧
      e2 = .dir (moveFile f new_name es) := by
  unfold _rename_if_single_file at h
  dsimp only at h
  split at h
  · rename_i f2 hq hrel
    injection h with ha hb
    injection ha with ha
    subst ha
    subst hb
    exact ⟨hq, hrel, rfl⟩
  · injection h with ha hb
    cases ha

theorem hasRelevantDirs_eq_false_iff (es : List (String × Entry)) :
    hasRelevantDirs es = false ↔
      ∀ d ∈ dirNames es, strContains d "test" = true ∨ d = ".git" := by
  simp only [hasRelevantDirs, List.any_eq_false, Bool.and_eq_true, Bool.not_eq_true',
    bne_iff_ne, not_and, ne_eq, not_not]
  constructor
  · intro h d hd
    rcases Bool.eq_false_or_eq_true (strContains d "test") with hc | hc
    · exact Or.inl hc
    · exact Or.inr (h d hd hc)
  · intro h d hd hc
    rcases h d hd with hc2 | hc2
    · rw [hc2] at hc; cases hc
    · exact hc2

theorem fileNames_sublist (es : List (String × Entry)) :
    List.Sublist (fileNames es) (es.map Prod.fst) := by
  induction es with
  | nil => simp [fileNames]
  | cons p rest ih =>
      obtain ⟨n, e⟩ := p
      cases e with
      | file c => exact ih.cons₂ n
      | dir es2 => exact ih.cons n

theorem names_perm (es : List (String × Entry)) :
    (es.map Prod.fst).Perm (fileNames es ++ dirNames es) := by
  induction es with
  | nil => simp [fileNames, dirNames]
  | cons p rest ih =>
      obtain ⟨n, e⟩ := p
      cases e with
      | file c => exact ih.cons n
      | dir es2 =>
          show (n :: rest.map Prod.fst).Perm (fileNames rest ++ n :: dirNames rest)
          exact (ih.cons n).trans List.perm_middle.symm

theorem file_not_dir_name {es : List (String × Entry)} (hnd : (es.map Prod.fst).Nodup)
    {x : String} (hf : x ∈ fileNames es) : x ∉ dirNames es := by
  have h := ((names_perm es).nodup_iff).1 hnd
  exact (List.nodup_append.1 h).2.2 hf

theorem moveFile_eq_map {es : List (String × Entry)} {src dst : String}
    (hne : src ≠ dst) (hfresh : dst ∉ es.map Prod.fst) :
    moveFile src dst es =
      es.map (fun p => if p.1 == src then (dst, p.2) else p) := by
  unfold moveFile
  rw [if_neg (by simpa using hne)]
  congr 1
  apply List.filter_eq_self.2
  intro p hp
  have h2 : p.1 ≠ dst := fun h => hfresh (h ▸ List.mem_map_of_mem Prod.fst hp)
  simpa using h2

theorem fileNames_moveMap (es : List (String × Entry)) (src dst : String) :
    fileNames (es.map (fun p => if p.1 == src then (dst, p.2) else p)) =
      (fileNames es).map (fun f => if f == src then dst else f) := by
  induction es with
  | nil => rfl
  | cons p rest ih =>
      obtain ⟨n, e⟩ := p
      cases e with
      | file c => by_cases hn : n = src <;> simp [fileNames, hn] <;> simpa [fileNames] using ih
      | dir es2 => by_cases hn : n = src <;> simp [fileNames, hn] <;> simpa [fileNames] using ih

theorem dirNames_moveMap (es : List (String × Entry)) (src dst : String) :
    dirNames (es.map (fun p => if p.1 == src then (dst, p.2) else p)) =
      (dirNames es).map (fun d => if d == src then dst else d) := by
  induction es with
  | nil => rfl
  | cons p rest ih =>
      obtain ⟨n, e⟩ := p
      cases e with
      | file c => by_cases hn : n = src <;> simp [dirNames, hn] <;> simpa [dirNames] using ih
      | dir es2 => by_cases hn : n = src <;> simp [dirNames, hn] <;> simpa [dirNames] using ih

theorem filter_subst_nil {m2 : String → Bool} {src dst : String} {L : List String}
    (h : ∀ f ∈ L, m2 f = false) (hsrc : src ∉ L) :
    ((L.map (fun f => if f == src then dst else f)).filter m2) = [] := by
  induction L with
  | nil => rfl
  | cons x rest ih =>
      have hx : x ≠ src := fun h2 => hsrc (h2 ▸ List.mem_cons_self x rest)
      have hmx : m2 x = false := h x (List.mem_cons_self x rest)
      rw [List.map_cons, if_neg (by simpa using hx), List.filter_cons, if_neg (by simp [hmx])]
      exact ih (fun f hf => h f (List.mem_cons_of_mem _ hf))
        (fun hs => hsrc (List.mem_cons_of_mem _ hs))

theorem filter_subst_singleton {m2 : String → Bool} {src dst : String} {L : List String}
    (hnd : L.Nodup) (hin : src ∈ L) (h : ∀ f ∈ L, f ≠ src → m2 f = false)
    (hdst : m2 dst = true) :
    ((L.map (fun f => if f == src then dst else f)).filter m2) = [dst] := by
  induction L with
  | nil => cases hin
  | cons x rest ih =>
      rcases List.mem_cons.1 hin with rfl | hin2
      · rw [List.map_cons, if_pos (by simp), List.filter_cons, if_pos (by simp [hdst])]
        rw [filter_subst_nil
          (fun f hf => h f (List.mem_cons_of_mem _ hf)
            (fun h2 => (List.nodup_cons.1 hnd).1 (h2 ▸ hf)))
          (List.nodup_cons.1 hnd).1]
      · have hx : x ≠ src := fun h2 => (List.nodup_cons.1 hnd).1 (h2 ▸ hin2)
        have hmx : m2 x = false := h x (List.mem_cons_self x rest) hx
        rw [List.map_cons, if_neg (by simpa using hx), List.filter_cons, if_neg (by simp [hmx])]
        exact ih (List.nodup_cons.1 hnd).2 hin2
          (fun f hf hne => h f (List.mem_cons_of_mem _ hf) hne)

theorem markerAt_hasMarkerAt {pred : Bool → String → Bool} {marker : String}
    {e : Entry} {q : List String} (h : MarkerAt pred marker e q) :
    HasMarkerAt marker e q := by
  induction h with
  | here hm => exact HasMarkerAt.here hm
  | there hmem _ _ _ ih => exact HasMarkerAt.there hmem ih

theorem walkDirs_fst_of_child {pred : Bool → String → Bool} {marker : String}
    {n : String} {c : Entry}
    (hch : ∀ path acc, ((walkDir pred marker path c acc).1).isSome = true)
    (hdir : c.isDir = true) (hacc : pred true n = true) :
    ∀ (es : List (String × Entry)), (n, c) ∈ es →
      ∀ path acc, ((walkDirs pred marker path es acc).1).isSome = true := by
  intro es
  induction es with
  | nil => intro h; cases h
  | cons hd rest ih =>
      intro hmem path acc
      rcases List.mem_cons.1 hmem with heq | hmem2
      · subst heq
        have h2 := hch (path ++ [n]) acc
        simp only [walkDirs]
        rw [if_pos (by simp [hdir, hacc])]
        rcases hres : walkDir pred marker (path ++ [n]) c acc with ⟨f1, a1⟩
        rw [hres] at h2
        cases f1 with
        | some p => simp
        | none => simp at h2
      · obtain ⟨m, d⟩ := hd
        simp only [walkDirs]
        by_cases hg : (d.isDir && pred true m) = true
        · rw [if_pos hg]
          rcases hres : walkDir pred marker (path ++ [m]) d acc with ⟨f1, a1⟩
          cases f1 with
          | some p => simp
          | none => exact ih hmem2 path a1
        · rw [if_neg hg]
          exact ih hmem2 path acc

theorem walkDir_fst_of_marker {pred : Bool → String → Bool} {marker : String}
    {e : Entry} {q : List String} (h : MarkerAt pred marker e q) :
    ∀ path acc, ((walkDir pred marker path e acc).1).isSome = true := by
  induction h with
  | here hm =>
      intro path acc
      simp only [walkDir]
      rw [if_pos (by simpa using hm)]
      simp
  | there hmem hdir hacc htail ih =>
      intro path acc
      simp only [walkDir]
      rename_i es n c q2
      by_cases hm : ((fileNames es).contains marker) = true
      · rw [if_pos hm]; simp
      · rw [if_neg hm]
        exact walkDirs_fst_of_child ih hdir hacc es hmem path _

theorem walkDirs_fst_sound {pred : Bool → String → Bool} {marker : String}
    (es : List (String × Entry))
    (hes : ∀ x ∈ es, ∀ path acc p, (walkDir pred marker path x.2 acc).1 = some p →
       ∃ q, p = path ++ q ∧ MarkerAt pred marker x.2 q) :
    ∀ path acc p, (walkDirs pred marker path es acc).1 = some p →
      ∃ n c q, (n, c) ∈ es ∧ c.isDir = true ∧ pred true n = true ∧
        p = path ++ n :: q ∧ MarkerAt pred marker c q := by
  induction es with
  | nil =>
      intro path acc p h
      rw [walkDirs] at h
      cases h
  | cons hd rest ih =>
      obtain ⟨m, d⟩ := hd
      intro path acc p h
      simp only [walkDirs] at h
      by_cases hg : (d.isDir && pred true m) = true
      · rw [if_pos hg] at h
        rcases hres : walkDir pred marker (path ++ [m]) d acc with ⟨f1, a1⟩
        rw [hres] at h
        cases f1 with
        | some p2 =>
            simp only at h
            injection h with h
            subst h
            have h3 : (walkDir pred marker (path ++ [m]) d acc).1 = some p2 := by
              rw [hres]
            obtain ⟨q, hq, hM⟩ := hes (m, d) (List.mem_cons_self ..) (path ++ [m]) acc p2 h3
            obtain ⟨hgd, hga⟩ : d.isDir = true ∧ pred true m = true := by simpa using hg
            exact ⟨m, d, q, List.mem_cons_self .., hgd, hga, by simp [hq], hM⟩
        | none =>
            obtain ⟨n, c, q, hmem, hd2, ha2, hp, hM⟩ :=
              ih (fun x hx => hes x (List.mem_cons_of_mem _ hx)) path a1 p h
            exact ⟨n, c, q, List.mem_cons_of_mem _ hmem, hd2, ha2, hp, hM⟩
      · rw [if_neg hg] at h
        obtain ⟨n, c, q, hmem, hd2, ha2, hp, hM⟩ :=
          ih (fun x hx => hes x (List.mem_cons_of_mem _ hx)) path acc p h
        exact ⟨n, c, q, List.mem_cons_of_mem _ hmem, hd2, ha2, hp, hM⟩

theorem walkDir_fst_sound {pred : Bool → String → Bool} {marker : String} :
    ∀ (e : Entry), ∀ path acc p, (walkDir pred marker path e acc).1 = some p →
      ∃ q, p = path ++ q ∧ MarkerAt pred marker e q := by
  intro e
  induction e using Entry.induct with
  | hfile c =>
      intro path acc p h
      rw [walkDir] at h
      cases h
  | hdir es ih =>
      intro path acc p h
      simp only [walkDir] at h
      by_cases hm : ((fileNames es).contains marker) = true
      · rw [if_pos hm] at h
        simp only at h
        injection h with h
        exact ⟨[], by simp [h.symm], MarkerAt.here (by simpa using hm)⟩
      · rw [if_neg hm] at h
        obtain ⟨n, c, q, hmem, hd2, ha2, hp, hM⟩ :=
          walkDirs_fst_sound es ih path _ p h
        exact ⟨n :: q, hp, MarkerAt.there hmem hd2 ha2 hM⟩

theorem walkDirs_snd_acc {pred : Bool → String → Bool} {marker : String}
    (es : List (String × Entry))
    (hes : ∀ x ∈ es, ∀ path a, (walkDir pred marker path x.2 (some a)).2 = some a) :
    ∀ path a, (walkDirs pred marker path es (some a)).2 = some a := by
  induction es with
  | nil => intro path a; rw [walkDirs]
  | cons hd rest ih =>
      obtain ⟨m, d⟩ := hd
      intro path a
      simp only [walkDirs]
      by_cases hg : (d.isDir && pred true m) = true
      · rw [if_pos hg]
        rcases hres : walkDir pred marker (path ++ [m]) d (some a) with ⟨f1, a1⟩
        have h2 := hes (m, d) (List.mem_cons_self ..) (path ++ [m]) a
        rw [hres] at h2
        simp only at h2
        cases f1 with
        | some p => simpa using h2
        | none =>
            rw [h2]
            exact ih (fun x hx => hes x (List.mem_cons_of_mem _ hx)) path a
      · rw [if_neg hg]
        exact ih (fun x hx => hes x (List.mem_cons_of_mem _ hx)) path a

theorem walkDir_snd_acc {pred : Bool → String → Bool} {marker : String} :
    ∀ (e : Entry), ∀ path a, (walkDir pred marker path e (some a)).2 = some a := by
  intro e
  induction e using Entry.induct with
  | hfile c => intro path a; rw [walkDir]
  | hdir es ih =>
      intro path a
      simp only [walkDir]
      by_cases hm : ((fileNames es).contains marker) = true
      · rw [if_pos hm]
      · rw [if_neg hm]
        exact walkDirs_snd_acc es ih path a

theorem walkDirs_snd_acc_all {pred : Bool → String → Bool} {marker : String}
    (es : List (String × Entry)) (path : List String) (a : List String) :
    (walkDirs pred marker path es (some a)).2 = some a :=
  walkDirs_snd_acc es (fun x _ => walkDir_snd_acc x.2) path a

theorem walkDirs_snd_sound {pred : Bool → String → Bool} {marker : String}
    (es : List (String × Entry))
    (hes : ∀ x ∈ es, ∀ path acc p, (walkDir pred marker path x.2 acc).2 = some p →
       acc = some p ∨ ∃ q, p = path ++ q ∧ IncFileAt pred x.2 q) :
    ∀ path acc p, (walkDirs pred marker path es acc).2 = some p →
      acc = some p ∨ ∃ n c q, (n, c) ∈ es ∧ c.isDir = true ∧ pred true n = true ∧
        p = path ++ n :: q ∧ IncFileAt pred c q := by
  induction es with
  | nil =>
      intro path acc p h
      rw [walkDirs] at h
      exact Or.inl h
  | cons hd rest ih =>
      obtain ⟨m, d⟩ := hd
      intro path acc p h
      simp only [walkDirs] at h
      by_cases hg : (d.isDir && pred true m) = true
      · rw [if_pos hg] at h
        obtain ⟨hgd, hga⟩ : d.isDir = true ∧ pred true m = true := by simpa using hg
        rcases hres : walkDir pred marker (path ++ [m]) d acc with ⟨f1, a1⟩
        rw [hres] at h
        have hchild : ∀ p2, a1 = some p2 →
            acc = some p2 ∨ ∃ q, p2 = (path ++ [m]) ++ q ∧ IncFileAt pred d q := by
          intro p2 h2
          apply hes (m, d) (List.mem_cons_self ..) (path ++ [m]) acc p2
          rw [hres]
          exact h2
        cases f1 with
        | some p2 =>
            simp only at h
            rcases hchild p h with hl | ⟨q, hq, hI⟩
            · exact Or.inl hl
            · exact Or.inr ⟨m, d, q, List.mem_cons_self .., hgd, hga, by simp [hq], hI⟩
        | none =>
            simp only at h
            rcases ih (fun x hx => hes x (List.mem_cons_of_mem _ hx)) path a1 p h with
              hl | ⟨n, c, q, hmem, hd2, ha2, hp, hI⟩
            · rcases hchild p hl with hl2 | ⟨q, hq, hI⟩
              · exact Or.inl hl2
              · exact Or.inr ⟨m, d, q, List.mem_cons_self .., hgd, hga, by simp [hq], hI⟩
            · exact Or.inr ⟨n, c, q, List.mem_cons_of_mem _ hmem, hd2, ha2, hp, hI⟩
      · rw [if_neg hg] at h
        rcases ih (fun x hx => hes x (List.mem_cons_of_mem _ hx)) path acc p h with
          hl | ⟨n, c, q, hmem, hd2, ha2, hp, hI⟩
        · exact Or.inl hl
        · exact Or.inr ⟨n, c, q, List.mem_cons_of_mem _ hmem, hd2, ha2, hp, hI⟩

theorem walkDir_snd_sound {pred : Bool → String → Bool} {marker : String} :
    ∀ (e : Entry), ∀ path acc p, (walkDir pred marker path e acc).2 = some p →
      acc = some p ∨ ∃ q, p = path ++ q ∧ IncFileAt pred e q := by
  intro e
  induction e using Entry.induct with
  | hfile c =>
      intro path acc p h
      rw [walkDir] at h
      exact Or.inl h
  | hdir es ih =>
      intro path acc p h
      simp only [walkDir] at h
      by_cases hm : ((fileNames es).contains marker) = true
      · rw [if_pos hm] at h
        exact Or.inl h
      · rw [if_neg hm] at h
        rcases walkDirs_snd_sound es ih path _ p h with
          hl | ⟨n, c, q, hmem, hd2, ha2, hp, hI⟩
        · cases hacc : acc with
          | some a =>
              rw [hacc] at hl
              simp only at hl
              exact Or.inl (hacc ▸ hl)
          | none =>
              rw [hacc] at hl
              simp only at hl
              by_cases hany : ((fileNames es).any fun f => pred false f) = true
              · rw [if_pos hany] at hl
                injection hl with hl
                refine Or.inr ⟨[], by simp [hl.symm], IncFileAt.here ?_⟩
                simpa using hany
              · rw [if_neg hany] at hl
                cases hl
        · exact Or.inr ⟨n :: q, hp, IncFileAt.there hmem hd2 ha2 hI⟩

theorem walkDirs_snd_complete {pred : Bool → String → Bool} {marker : String}
    (es : List (String × Entry))
    (hes : ∀ x ∈ es, x.2.isDir = true → pred true x.1 = true →
        ∀ path acc, (acc.isSome = true ∨ ∃ q, IncFileAt pred x.2 q) →
        ((walkDir pred marker path x.2 acc).2).isSome = true)
    (hnm : ∀ x ∈ es, x.2.isDir = true → pred true x.1 = true →
        ¬ ∃ q, MarkerAt pred marker x.2 q) :
    ∀ path acc, (acc.isSome = true ∨ ∃ n c q, (n, c) ∈ es ∧ c.isDir = true ∧
        pred true n = true ∧ IncFileAt pred c q) →
      ((walkDirs pred marker path es acc).2).isSome = true := by
  induction es with
  | nil =>
      intro path acc hdisj
      rw [walkDirs]
      rcases hdisj with h | ⟨n, c, q, hmem, _⟩
      · exact h
      · cases hmem
  | cons hd rest ih =>
      obtain ⟨m, d⟩ := hd
      intro path acc hdisj
      simp only [walkDirs]
      by_cases hg : (d.isDir && pred true m) = true
      · rw [if_pos hg]
        obtain ⟨hgd, hga⟩ : d.isDir = true ∧ pred true m = true := by simpa using hg
        rcases hres : walkDir pred marker (path ++ [m]) d acc with ⟨f1, a1⟩
        cases f1 with
        | some p2 =>
            exfalso
            have h2 : (walkDir pred marker (path ++ [m]) d acc).1 = some p2 := by
              rw [hres]
            obtain ⟨q, _, hM⟩ := walkDir_fst_sound d (path ++ [m]) acc p2 h2
            exact hnm (m, d) (List.mem_cons_self ..) hgd hga ⟨q, hM⟩
        | none =>
            simp only
            cases ha1 : a1 with
            | some b =>
                rw [walkDirs_snd_acc_all rest path b]
                rfl
            | none =>
                rcases hdisj with hacc | ⟨n, c, q, hmem, hd2, ha2, hI⟩
                · exfalso
                  obtain ⟨a, ha⟩ := Option.isSome_iff_exists.1 hacc
                  have h2 := @walkDir_snd_acc pred marker d (path ++ [m]) a
                  rw [ha] at hres
                  rw [hres] at h2
                  simp only at h2
                  rw [ha1] at h2
                  cases h2
                · rcases List.mem_cons.1 hmem with heq | hmem2
                  · exfalso
                    have h2 := hes (m, d) (List.mem_cons_self ..) hgd hga (path ++ [m]) acc
                      (Or.inr (by
                        obtain ⟨h3, h4⟩ := Prod.mk.injEq .. ▸ heq.symm
                        exact ⟨q, h4 ▸ hI⟩))
                    rw [hres] at h2
                    simp only at h2
                    rw [ha1] at h2
                    cases h2
                  · exact ih (fun x hx => hes x (List.mem_cons_of_mem _ hx))
                      (fun x hx => hnm x (List.mem_cons_of_mem _ hx)) path none
                      (Or.inr ⟨n, c, q, hmem2, hd2, ha2, hI⟩)
      · rw [if_neg hg]
        rcases hdisj with hacc | ⟨n, c, q, hmem, hd2, ha2, hI⟩
        · exact ih (fun x hx => hes x (List.mem_cons_of_mem _ hx))
            (fun x hx => hnm x (List.mem_cons_of_mem _ hx)) path acc (Or.inl hacc)
        · rcases List.mem_cons.1 hmem with heq | hmem2
          · exfalso
            obtain ⟨h3, h4⟩ := Prod.mk.injEq .. ▸ heq.symm
            apply hg
            rw [h4, h3]
            simp [hd2, ha2]
          · exact ih (fun x hx => hes x (List.mem_cons_of_mem _ hx))
              (fun x hx => hnm x (List.mem_cons_of_mem _ hx)) path acc
              (Or.inr ⟨n, c, q, hmem2, hd2, ha2, hI⟩)

theorem walkDir_snd_complete {pred : Bool → String → Bool} {marker : String} :
    ∀ (e : Entry), (¬ ∃ q, MarkerAt pred marker e q) →
      ∀ path acc, (acc.isSome = true ∨ ∃ q, IncFileAt pred e q) →
      ((walkDir pred marker path e acc).2).isSome = true := by
  intro e
  induction e using Entry.induct with
  | hfile c =>
      intro _ path acc hdisj
      rw [walkDir]
      rcases hdisj with h | ⟨q, hI⟩
      · exact h
      · cases hI
  | hdir es ih =>
      intro hnm path acc hdisj
      simp only [walkDir]
      by_cases hm : ((fileNames es).contains marker) = true
      · exact absurd ⟨[], MarkerAt.here (by simpa using hm)⟩ hnm
      · rw [if_neg hm]
        have hes : ∀ x ∈ es, x.2.isDir = true → pred true x.1 = true →
            ∀ path2 acc2, (acc2.isSome = true ∨ ∃ q, IncFileAt pred x.2 q) →
            ((walkDir pred marker path2 x.2 acc2).2).isSome = true := by
          intro x hx hxd hxa path2 acc2 hdisj2
          refine ih x hx ?_ path2 acc2 hdisj2
          rintro ⟨q, hM⟩
          exact hnm ⟨x.1 :: q, MarkerAt.there hx hxd hxa hM⟩
        have hnm2 : ∀ x ∈ es, x.2.isDir = true → pred true x.1 = true →
            ¬ ∃ q, MarkerAt pred marker x.2 q := by
          rintro x hx hxd hxa ⟨q, hM⟩
          exact hnm ⟨x.1 :: q, MarkerAt.there hx hxd hxa hM⟩
        cases hacc : acc with
        | some a =>
            refine walkDirs_snd_complete es hes hnm2 path _ (Or.inl ?_)
            rfl
        | none =>
            by_cases hany : ((fileNames es).any fun f => pred false f) = true
            · refine walkDirs_snd_complete es hes hnm2 path _ (Or.inl ?_)
              simp [hany]
            · rcases hdisj with hacc2 | ⟨q, hI⟩
              · rw [hacc] at hacc2
                cases hacc2
              · cases hI with
                | here h2 =>
                    exfalso
                    apply hany
                    simpa using h2
                | there hmem hd2 ha2 hI2 =>
                    refine walkDirs_snd_complete es hes hnm2 path _
                      (Or.inr ⟨_, _, _, hmem, hd2, ha2, hI2⟩)

/-- Claim C3: for every filter configuration the compiled predicate rejects
the literal name ".git", and whenever both an include and an exclude pattern
are configured and both fully match a name, the name is rejected: exclude
precedence holds unconditionally. -/
theorem build_should_include_git_and_exclude_precedence
    (cfg : KindCfg) (isdir : Bool) (name : String) :
    _build_should_include cfg isdir ".git" = false ∧
    (∀ mi me, cfg.include_pattern = some mi → cfg.exclude_pattern = some me →
      mi name = true → me name = true →
      _build_should_include cfg isdir name = false) := by
  obtain ⟨inc, exc⟩ := cfg
  constructor
  · cases inc <;> cases exc <;> simp [_build_should_include]
  · intro mi me hi he hmi hme
    cases inc <;> cases exc <;> simp_all [_build_should_include]

/-- Witness for claim C3: a configuration with both patterns present, at a
name matched by both, and the ".git" rejection at the same configuration. -/
theorem build_should_include_git_and_exclude_precedence_witness :
    _build_should_include ⟨some (fun _ => true), some (fun _ => true)⟩ false "demo.lua" = false ∧
    _build_should_include ⟨some (fun _ => true), some (fun _ => true)⟩ false ".git" = false :=
  ⟨(build_should_include_git_and_exclude_precedence
      ⟨some (fun _ => true), some (fun _ => true)⟩ false "demo.lua").2
        _ _ rfl rfl rfl rfl,
   (build_should_include_git_and_exclude_precedence
      ⟨some (fun _ => true), some (fun _ => true)⟩ false "demo.lua").1⟩

/-- Claim C4, counterexample to the claim as stated: with an exclude pattern
matching "tests", a directory containing the marker file exists under the
walked path (at relative path tests/), yet the resolver returns the root as
a fallback — a directory that does not contain the marker — because the
walk prunes rejected directories and never sees markers below them. -/
theorem find_src_module_path_pruned_marker_cex :
    HasMarkerAt "init.lua" pruneCexTree ["tests"] ∧
    _find_src_module_path pruneCexPred "init.lua" pruneCexTree = some [] ∧
    ¬ HasMarkerAt "init.lua" pruneCexTree [] := by
  refine ⟨HasMarkerAt.there (c := .dir [("init.lua", .file "")]) (by decide)
    (HasMarkerAt.here (by decide)), by decide, ?_⟩
  intro h
  unfold pruneCexTree at h
  cases h with
  | here hm => exact absurd hm (by decide)

/-- Claim C4 as amended: the resolver returns a directory containing the
marker file whenever such a directory is reachable in the pruned traversal
— from the root through filter-accepted subdirectories only — in
preference to any fallback and regardless of the order in which marker and
fallback are discovered; when no reachable marker exists it returns the
fallback, a reachable directory containing an accepted file; and when
neither a reachable marker nor a reachable accepted file exists, the
operation fails fatally. -/
theorem find_src_module_path_marker_priority
    (pred : Bool → String → Bool) (marker : String) (e : Entry) :
    ((∃ q, MarkerAt pred marker e q) →
       ∃ p, _find_src_module_path pred marker e = some p ∧ HasMarkerAt marker e p) ∧
    ((¬ ∃ q, MarkerAt pred marker e q) → (∃ q, IncFileAt pred e q) →
       ∃ p, _find_src_module_path pred marker e = some p ∧ IncFileAt pred e p) ∧
    ((¬ ∃ q, MarkerAt pred marker e q) → (¬ ∃ q, IncFileAt pred e q) →
       _find_src_module_path pred marker e = none) := by
  refine ⟨?_, ?_, ?_⟩
  · rintro ⟨q, hM⟩
    have hs := walkDir_fst_of_marker hM [] none
    rcases hw : walkDir pred marker [] e none with ⟨f1, a1⟩
    rw [hw] at hs
    cases f1 with
    | none => simp at hs
    | some p =>
        refine ⟨p, ?_, ?_⟩
        · unfold _find_src_module_path
          rw [hw]
        · have h2 : (walkDir pred marker [] e none).1 = some p := by rw [hw]
          obtain ⟨q2, hq2, hM2⟩ := walkDir_fst_sound e [] none p h2
          have h3 : p = q2 := by simpa using hq2
          exact h3 ▸ markerAt_hasMarkerAt hM2
  · rintro hnm ⟨q, hI⟩
    rcases hw : walkDir pred marker [] e none with ⟨f1, a1⟩
    cases f1 with
    | some p =>
        exfalso
        have h2 : (walkDir pred marker [] e none).1 = some p := by rw [hw]
        obtain ⟨q2, _, hM2⟩ := walkDir_fst_sound e [] none p h2
        exact hnm ⟨q2, hM2⟩
    | none =>
        have hs := walkDir_snd_complete e hnm [] none (Or.inr ⟨q, hI⟩)
        rw [hw] at hs
        simp only at hs
        obtain ⟨p, hp⟩ := Option.isSome_iff_exists.1 hs
        refine ⟨p, ?_, ?_⟩
        · unfold _find_src_module_path
          rw [hw]
          simp only
          exact hp
        · have h2 : (walkDir pred marker [] e none).2 = some p := by rw [hw]; exact hp
          rcases walkDir_snd_sound e [] none p h2 with hl | ⟨q2, hq2, hI2⟩
          · cases hl
          · have h3 : p = q2 := by simpa using hq2
            exact h3 ▸ hI2
  · intro hnm hni
    rcases hw : walkDir pred marker [] e none with ⟨f1, a1⟩
    cases f1 with
    | some p =>
        exfalso
        have h2 : (walkDir pred marker [] e none).1 = some p := by rw [hw]
        obtain ⟨q2, _, hM2⟩ := walkDir_fst_sound e [] none p h2
        exact hnm ⟨q2, hM2⟩
    | none =>
        cases ha1 : a1 with
        | none =>
            unfold _find_src_module_path
            rw [hw, ha1]
        | some p =>
            exfalso
            have h2 : (walkDir pred marker [] e none).2 = some p := by
              rw [hw]
              simp only
              exact ha1
            rcases walkDir_snd_sound e [] none p h2 with hl | ⟨q2, _, hI2⟩
            · cases hl
            · exact hni ⟨q2, hI2⟩

/-- Witness for the amended claim C4: a tree whose root itself holds the
marker file. -/
theorem find_src_module_path_marker_priority_witness :
    ∃ p, _find_src_module_path (fun _ _ => true) "init.lua"
        (.dir [("init.lua", .file "")]) = some p ∧
      HasMarkerAt "init.lua" (.dir [("init.lua", .file "")]) p :=
  (find_src_module_path_marker_priority (fun _ _ => true) "init.lua"
      (.dir [("init.lua", .file "")])).1 ⟨[], MarkerAt.here (by decide)⟩

/-- Claim C10: calling the materializer with a missing source raises the
not-found error before any destination mutation; the destination is left
byte-for-byte unchanged. -/
theorem copy_and_overwrite_missing_source_preserves_dest
    (should_include_fn : Bool → String → Bool) (to_tree : Option Entry) :
    _copy_and_overwrite should_include_fn none to_tree =
      (some FsError.fileNotFound, to_tree) := rfl

/-- Claim C5: materializing the same unchanged source with the same filter a
second time leaves the destination byte-for-byte identical to the result of a
single call (the destination produced by the first call is the second call's
starting destination). -/
theorem copy_and_overwrite_idempotent
    (should_include_fn : Bool → String → Bool) (src : Entry) (to_tree : Option Entry) :
    _copy_and_overwrite should_include_fn (some src)
        (_copy_and_overwrite should_include_fn (some src) to_tree).2 =
      (none, (_copy_and_overwrite should_include_fn (some src) to_tree).2) := rfl

/-- Claim C6, counterexample to the claim as stated: a directory holding a
subdirectory ("tests") nevertheless gets its lone qualifying file renamed
and the original name returned, because the source only vetoes the rename
on subdirectories whose name does not contain the substring "test" and is
not ".git". -/
theorem rename_if_single_file_testdir_cex :
    dirNames [("tests", Entry.dir []), ("windfield.lua", Entry.file "w")] ≠ [] ∧
    (_rename_if_single_file (.dir [("tests", .dir []), ("windfield.lua", .file "w")])
        "init.lua" (some dotLuaRe)).1 = some "windfield.lua" := by decide

/-- Claim C6 as amended: the normalizer renames and returns the original
name exactly when, after applying the include regex (when present) to the
immediate files, exactly one qualifying file remains and every immediate
subdirectory is irrelevant — its name contains the substring "test" or is
".git"; in every other case no rename occurs and none is returned; and a
rename only replaces the qualifying entry name at the top level (the
returned tree is the top-level move, subdirectory contents untouched). -/
theorem rename_if_single_file_characterization
    (es : List (String × Entry)) (new_name : String)
    (include_re : Option (String → Bool)) :
    (∀ f, (_rename_if_single_file (.dir es) new_name include_re).1 = some f ↔
       (qualifyingFiles include_re es = [f] ∧
        ∀ d ∈ dirNames es, strContains d "test" = true ∨ d = ".git")) ∧
    ((_rename_if_single_file (.dir es) new_name include_re).1 = none →
       (_rename_if_single_file (.dir es) new_name include_re).2 = .dir es) ∧
    (∀ f, (_rename_if_single_file (.dir es) new_name include_re).1 = some f →
       (_rename_if_single_file (.dir es) new_name include_re).2 =
         .dir (moveFile f new_name es)) := by
  refine ⟨fun f => ⟨fun h => ?_, fun h => ?_⟩, fun h => ?_, fun f h => ?_⟩
  · have h2 : _rename_if_single_file (.dir es) new_name include_re =
        (some f, (_rename_if_single_file (.dir es) new_name include_re).2) := by
      rw [← h]
    obtain ⟨hq, hrel, _⟩ := rename_fires_inv h2
    exact ⟨hq, (hasRelevantDirs_eq_false_iff es).1 hrel⟩
  · rw [rename_fires new_name h.1 ((hasRelevantDirs_eq_false_iff es).2 h.2)]
  · rcases hfst : (_rename_if_single_file (.dir es) new_name include_re).1 with _ | f
    · have h2 : _rename_if_single_file (.dir es) new_name include_re =
          (none, (_rename_if_single_file (.dir es) new_name include_re).2) := by
        rw [← hfst]
      unfold _rename_if_single_file at h2 ⊢
      dsimp only at h2 ⊢
      split at h2
      · injection h2 with ha _; cases ha
      · rfl
    · rw [hfst] at h; cases h
  · have h2 : _rename_if_single_file (.dir es) new_name include_re =
        (some f, (_rename_if_single_file (.dir es) new_name include_re).2) := by
      rw [← h]
    obtain ⟨_, _, he⟩ := rename_fires_inv h2
    exact he

/-- Witness for the amended claim C6: at a concrete directory whose only
subdirectory is irrelevant, the backward direction of the characterization
yields the rename. -/
theorem rename_if_single_file_characterization_witness :
    (_rename_if_single_file (.dir [("test_stuff", .dir []), ("x.lua", .file "c")])
        "init.lua" none).1 = some "x.lua" :=
  ((rename_if_single_file_characterization
      [("test_stuff", .dir []), ("x.lua", .file "c")] "init.lua" none).1 "x.lua").mpr
    ⟨by decide, by decide⟩

/-- Claim C7: renaming the singleton module file to the canonical entry
name (recording its original name) and later applying the reversal with the
recorded name is a round trip: the directory ends up exactly as before the
first rename — in particular with a file bearing the original filename and
the original content.  The hypotheses state the nominal situation: the
directory has no duplicate names, no entry already bears the canonical
name, the first rename fired and returned the original name, the
reverse-normalization pattern matches the canonical name and no other
file of the directory. -/
theorem rename_roundtrip
    (es : List (String × Entry)) (single_re marker_re : String → Bool)
    (root_marker orig : String) (e1 : Entry)
    (hnodup : (es.map Prod.fst).Nodup)
    (hfresh : root_marker ∉ es.map Prod.fst)
    (h1 : _rename_if_single_file (.dir es) root_marker (some single_re) = (some orig, e1))
    (hm : marker_re root_marker = true)
    (hothers : ∀ f ∈ fileNames es, f ≠ orig → marker_re f = false) :
    _rename_if_single_file e1 orig (some marker_re) = (some root_marker, .dir es) := by
  obtain ⟨hq, hrel, he1⟩ := rename_fires_inv h1
  have hin : orig ∈ fileNames es := by
    have h2 : orig ∈ (fileNames es).filter single_re := by
      have h3 : qualifyingFiles (some single_re) es = (fileNames es).filter single_re := rfl
      rw [h3] at hq
      rw [hq]
      exact List.mem_singleton_self _
    exact List.mem_of_mem_filter h2
  have hne : orig ≠ root_marker :=
    fun h2 => hfresh (h2 ▸ (fileNames_sublist es).subset hin)
  have hmove := @moveFile_eq_map es orig root_marker hne hfresh
  have hf1 := fileNames_moveMap es orig root_marker
  have hd1 : dirNames (es.map (fun p => if p.1 == orig then (root_marker, p.2) else p)) =
      dirNames es := by
    rw [dirNames_moveMap]
    have h2 : ∀ d ∈ dirNames es, (if d == orig then root_marker else d) = d := by
      intro d hd
      have hdo : d ≠ orig := by
        intro h3
        exact (file_not_dir_name hnodup hin) (h3 ▸ hd)
      rw [if_neg (by simpa using hdo)]
    rw [List.map_congr_left h2, List.map_id']
  have hq2 : qualifyingFiles (some marker_re)
      (es.map (fun p => if p.1 == orig then (root_marker, p.2) else p)) = [root_marker] := by
    have h3 : qualifyingFiles (some marker_re)
        (es.map (fun p => if p.1 == orig then (root_marker, p.2) else p)) =
        (fileNames (es.map (fun p => if p.1 == orig then (root_marker, p.2) else p))).filter
          marker_re := rfl
    rw [h3, hf1]
    exact filter_subst_singleton (hnodup.sublist (fileNames_sublist es)) hin hothers hm
  have hrel2 : hasRelevantDirs
      (es.map (fun p => if p.1 == orig then (root_marker, p.2) else p)) = false := by
    unfold hasRelevantDirs at hrel ⊢
    rw [hd1]
    exact hrel
  have hfresh2 : orig ∉
      (es.map (fun p => if p.1 == orig then (root_marker, p.2) else p)).map Prod.fst := by
    rw [List.map_map]
    intro hmem
    obtain ⟨p, hp, hpe⟩ := List.mem_map.1 hmem
    obtain ⟨a, b⟩ := p
    by_cases hp1 : a = orig
    · simp only [Function.comp_apply, hp1] at hpe
      rw [if_pos (by simp)] at hpe
      exact hne hpe.symm
    · simp only [Function.comp_apply] at hpe
      rw [if_neg (by simpa using hp1)] at hpe
      exact hp1 hpe
  have hmove2 : moveFile root_marker orig
      (es.map (fun p => if p.1 == orig then (root_marker, p.2) else p)) = es := by
    rw [moveFile_eq_map (Ne.symm hne) hfresh2, List.map_map]
    have h2 : ∀ p ∈ es,
        ((fun q : String × Entry => if q.1 == root_marker then (orig, q.2) else q) ∘
          (fun q : String × Entry => if q.1 == orig then (root_marker, q.2) else q)) p = p := by
      intro p hp
      obtain ⟨a, b⟩ := p
      by_cases hp1 : a = orig
      · simp [Function.comp, hp1]
      · have hp2 : a ≠ root_marker :=
          fun h3 => hfresh (h3 ▸ List.mem_map_of_mem Prod.fst hp)
        simp [Function.comp, hp1, hp2]
    rw [List.map_congr_left h2, List.map_id']
  rw [he1, hmove, rename_fires orig hq2 hrel2, hmove2]

/-- Witness for claim C7 at the canonical single-file module: windfield.lua
renamed to init.lua on checkout and restored on checkin. -/
theorem rename_roundtrip_witness :
    _rename_if_single_file (.dir [("init.lua", .file "w")]) "windfield.lua"
        (some initLuaRe) = (some "init.lua", .dir [("windfield.lua", .file "w")]) :=
  rename_roundtrip [("windfield.lua", .file "w")] dotLuaRe initLuaRe
    "init.lua" "windfield.lua" (.dir [("init.lua", .file "w")])
    (by decide) (by decide) (by decide) (by decide) (by decide)

/-- Claim C8: a checkout invocation against a dirty project repository
aborts immediately: no branch bookkeeping, root resolution,
materialization, normalization or commit happens, and the configuration
record is returned unchanged. -/
theorem checkout_dirty_aborts (cfg : KindCfg) (root_marker : String)
    (rename_pattern : Option (String → Bool)) (project : String)
    (target_repo : GitRepo) (target_rel : List String) (module_tree : Entry)
    (branches : List String) (renamed_root_marker : Option String)
    (h : target_repo.is_dirty = true) :
    _checkout_module cfg root_marker rename_pattern project target_repo target_rel
        module_tree branches renamed_root_marker =
      ⟨target_repo, branches, renamed_root_marker, .abortedDirty⟩ := by
  unfold _checkout_module
  simp [h]

/-- Witness for claim C8 at a concrete dirty repository. -/
theorem checkout_dirty_aborts_witness :
    GitRepo.is_dirty ⟨.dir [], .dir [("a", .file "b")], 0⟩ = true ∧
    _checkout_module ⟨none, none⟩ "init.lua" none "p"
        ⟨.dir [], .dir [("a", .file "b")], 0⟩ [] (.dir []) [] none =
      ⟨⟨.dir [], .dir [("a", .file "b")], 0⟩, [], none, .abortedDirty⟩ :=
  ⟨by decide, checkout_dirty_aborts _ _ _ _ _ _ _ _ _ (by decide)⟩

/-- Claim C9: on every exit path of the checkin step — dirty abort, missing
branch, failed root resolution, copy failure because the module is missing
from the project, no-op and commit alike — the library clone's
version-control metadata directory ends up back at its original location
(in particular it is never destroyed by the wholesale copy, because it is
relocated before the copy whenever the resolved root is the clone's top
level). -/
theorem checkin_restores_dot_git (cfg : KindCfg) (root_marker : String)
    (root_marker_re : String → Bool) (has_rename_pattern : Bool)
    (renamed_root_marker : Option String) (project : String) (project_work : Entry)
    (target_rel : List String) (module_repo : GitRepo) (branches : List String)
    (isdir_cwd : List String → Bool) :
    (_checkin_module cfg root_marker root_marker_re has_rename_pattern
        renamed_root_marker project project_work target_rel module_repo branches
        isdir_cwd).dot_git = .home := by
  unfold _checkin_module
  repeat' split
  all_goals simp_all
  all_goals repeat' split
  all_goals simp_all

/-- Claim C1 (code bug): a checkin immediately after a checkout with no
intervening edits nevertheless creates a commit in the library clone.  With
the canonical Lua kind and a module holding a test directory that the
filter excludes from checkout, the checkout succeeds and records the
single-file rename, but the subsequent checkin reports the clone dirty
after the wholesale copy, lets the deletion of the excluded test file
through its restoration loop (the bare-name patterns are applied to the
full relative path), and commits: the clone gains one commit and loses the
excluded file instead of reporting a no-op. -/
theorem checkin_after_checkout_creates_commit :
    demoCheckout.outcome = .committed ∧
    demoCheckout.renamed_root_marker = some "windfield.lua" ∧
    demoCheckin.outcome = .committed ∧
    demoCheckin.module_repo.commits = 1 ∧
    isFileAt demoCheckin.module_repo.head ["tests", "a.lua"] = false := by decide

/-- Claim C2 (code bug): the checkout filter excludes the nested file
"tests/a.lua" (so a checkin's wholesale copy deletes it from the library
clone), yet the restoration loop does not restore it: the predicate is
applied to the full slash-joined relative path, which the include pattern
matches and the exclude pattern (written for bare names) does not, so the
deletion of the filter-excluded file is allowed through. -/
theorem excluded_nested_deletion_not_restored :
    isFileAt (copytree (_build_should_include loveCfg) windfieldTree)
        ["tests", "a.lua"] = false ∧
    _build_should_include loveCfg false "tests/a.lua" = true ∧
    restoreDeletions (_build_should_include loveCfg) (fun _ => false) windfieldTree
        (.dir [("windfield.lua", .file "w")]) =
      .dir [("windfield.lua", .file "w")] := by decide
